import Mathlib

/-!
Verification development for the QuFRes repository (patch-based quantum
frequency resampling pipeline).

The Python sources are shallowly embedded over exact rationals:

* `src/encoding.py`   — `patchify`, `depatchify`, `get_numQubits`, `encode`;
* `src/postprocessing.py` — `get_freqs`, `vec2sig`, `patch_vec2sig`;
* `src/resample_sim.py`   — `Resampling_Sim.run`, `Resampling_Sim.reconstruct`;
* `src/processing.py` — `QuDownsample`, `QuDownsample_MD` circuit builders.

Multi-dimensional numpy arrays are modelled as a shape list plus a flat
row-major data list; the handful of numpy primitives the code uses
(`reshape`, `moveaxis` on full-length axis permutations, `np.sum`,
broadcasting multiplication of the shapes that actually arise) are embedded
directly.  IEEE special values produced by numpy division are modelled by an
explicit extended-value type (`NpVal`): `0/0` is NaN, `x/0` for `x ≠ 0` is a
signed infinity, and `np.isinf` is false on NaN.
-/

/-- Row-major multi-dimensional array: a shape together with the flat data
list (length `shape.prod` for a well-formed array). -/
structure NpArray where
  shape : List Nat
  data : List ℚ
  deriving DecidableEq, Repr

/-- Flat row-major index of a multi-index `idx` in an array of shape `shape`. -/
def flatIdx (shape idx : List Nat) : Nat :=
  (shape.zip idx).foldl (fun acc si => acc * si.1 + si.2) 0

/-- Multi-index (row-major digits) of flat position `n` in shape `shape`. -/
def unflatIdx : List Nat → Nat → List Nat
  | [], _ => []
  | s :: rest, n => (n / rest.prod) % s :: unflatIdx rest (n % rest.prod)

/-- Model of `np.transpose(a, axes)` for a full-length axis permutation
`axes`: result axis `p` is source axis `axes[p]`. -/
def npTranspose (axes : List Nat) (a : NpArray) : NpArray :=
  let outShape := axes.map (fun p => a.shape.getD p 1)
  { shape := outShape
  , data := (List.range outShape.prod).map (fun n =>
      let idx := unflatIdx outShape n
      let srcIdx := (List.range a.shape.length).map
        (fun q => idx.getD (axes.indexOf q) 0)
      a.data.getD (flatIdx a.shape srcIdx) 0) }

/-- Model of `np.moveaxis(a, src, dst)` in the only form the code uses:
`src` and `dst` are full-length axis permutations.  Numpy then performs a
transpose whose order satisfies `order[dst[k]] = src[k]`. -/
def npMoveaxis (a : NpArray) (src dst : List Nat) : NpArray :=
  npTranspose ((List.range a.shape.length).map
    (fun p => src.getD (dst.indexOf p) 0)) a

/-- Model of `ndarray.reshape(shape)`; callers in this code always pass a
shape of the same total size, so only the shape field changes. -/
def npReshape (a : NpArray) (shape : List Nat) : NpArray :=
  { shape := shape, data := a.data }

/-- Interleaving of two lists, the embedding of the source's
`np.array(list(zip(xs, ys))).flatten()` idiom (truncates at the shorter
list, as `zip` does). -/
def interleave {α : Type} : List α → List α → List α
  | x :: xs, y :: ys => x :: y :: interleave xs ys
  | _, _ => []

/-- `encoding.patchify(signal, patch_shape)` (src/encoding.py lines 10-43).
Splits a signal into patches: single-patch case when `patch_shape` is `None`
or equals the signal shape; otherwise checks exact per-axis divisibility
(raising `ValueError` — the spec's `ShapeError` — when it fails), reshapes
each axis into a (patch-count, patch-size) pair, applies
`np.moveaxis(·, (0,…,2d−1), (0,d,1,d+1,…))`, and flattens the leading
patch-count axes into one patch index axis. -/
def patchify (signal : NpArray) (patch_shape : Option (List Nat)) :
    Except String NpArray :=
  let signal_shape := signal.shape
  let d := signal_shape.length
  match patch_shape with
  | none => .ok signal
  | some ps =>
    if signal_shape = ps then .ok signal
    else if (List.zipWith (· % ·) signal_shape ps).any (· ≠ 0) then
      .error "Signal shape is not divisible by patch shape: impossible to create patches"
    else
      let num_patch_ax := List.zipWith (· / ·) signal_shape ps
      let temp_shapes := interleave num_patch_ax ps
      let og_order := List.range (2 * d)
      let new_order := interleave (List.range d) (List.range' d d)
      let patches := npMoveaxis (npReshape signal temp_shapes) og_order new_order
      .ok (npReshape patches (patches.data.length / ps.prod :: ps))

/-- `encoding.depatchify(patches, out_shape)` (src/encoding.py lines 46-81).
Checks total-size compatibility (`ValueError` otherwise), returns the input
unchanged in the single-patch case, and otherwise reshapes to
`(*num_patch_ax, *patch_shape)` and calls
`np.moveaxis(·, new_order, og_order)` with `new_order = (0,…,2d−1)` and
`og_order = (0,d,1,d+1,…)` — the same (source, destination) pair `patchify`
used, not its inverse. -/
def depatchify (patches : NpArray) (out_shape : List Nat) :
    Except String NpArray :=
  let patch_shape :=
    if patches.shape.length ≠ out_shape.length then patches.shape.tail
    else patches.shape
  if out_shape.prod ≠ patches.shape.prod then
    .error "Output shape does not match patch shape"
  else if out_shape = patch_shape then .ok patches
  else
    let num_patch_ax := List.zipWith (· / ·) out_shape patch_shape
    let d := out_shape.length
    let reshaped := npReshape patches (num_patch_ax ++ patch_shape)
    let new_order := List.range (2 * d)
    let og_order := interleave (List.range d) (List.range' d d)
    .ok (npReshape (npMoveaxis reshaped new_order og_order) out_shape)

instance {ε α : Type} [DecidableEq ε] [DecidableEq α] :
    DecidableEq (Except ε α) := fun a b =>
  match a, b with
  | .ok x, .ok y =>
    if h : x = y then .isTrue (by rw [h]) else .isFalse (by simp [h])
  | .error x, .error y =>
    if h : x = y then .isTrue (by rw [h]) else .isFalse (by simp [h])
  | .ok _, .error _ => .isFalse (by simp)
  | .error _, .ok _ => .isFalse (by simp)

/-- Fuel-driven floor base-2 logarithm (structurally recursive so that
concrete instances reduce inside the kernel). -/
def log2Aux : Nat → Nat → Nat
  | _, 0 => 0
  | _, 1 => 0
  | 0, _ => 0
  | fuel + 1, n => 1 + log2Aux fuel (n / 2)

/-- Floor of `log2 n`, the value of Python's `int(np.log2(n))` for
`n ≥ 1` (`np.log2` is exact on powers of two and `int` truncates
downward on positives). -/
def intLog2 (n : Nat) : Nat := log2Aux n n

/-- Extended numeric value as produced by numpy floating arithmetic:
a finite value, NaN, or a signed infinity. -/
inductive NpVal (α : Type) where
  | finite (x : α)
  | nan
  | inf
  | ninf
  deriving DecidableEq, Repr

/-- Numpy division of finite operands under `np.errstate(divide='ignore',
invalid='ignore')`: `0/0` is NaN and `x/0` for `x ≠ 0` is a signed
infinity. -/
def npDiv (x y : ℚ) : NpVal ℚ :=
  if y = 0 then (if x = 0 then .nan else if 0 < x then .inf else .ninf)
  else .finite (x / y)

/-- The source's `tmp[np.isinf(tmp)] = 0` masking step: `np.isinf` is true
exactly on the two infinities (false on NaN), so only those are replaced
by 0. -/
def maskInf {α : Type} [Zero α] : NpVal α → NpVal α
  | .inf => .finite 0
  | .ninf => .finite 0
  | v => v

/-- Coercion of an exact rational extended value into the real extended
values that `np.sqrt` acts on. -/
def NpVal.toReal : NpVal ℚ → NpVal ℝ
  | .finite x => .finite (x : ℝ)
  | .nan => .nan
  | .inf => .inf
  | .ninf => .ninf

/-- Numpy `np.sqrt` on an extended real: NaN on negative inputs and on NaN,
`∞` on `∞`, NaN on `−∞`. -/
noncomputable def npSqrt : NpVal ℝ → NpVal ℝ
  | .finite x => if x < 0 then .nan else .finite (Real.sqrt x)
  | .nan => .nan
  | .inf => .inf
  | .ninf => .nan

/-- Numpy addition on extended reals (only the cases relevant to summing
amplitude squares; NaN propagates, infinities absorb finite values). -/
def npAdd : NpVal ℝ → NpVal ℝ → NpVal ℝ
  | .finite x, .finite y => .finite (x + y)
  | .nan, _ => .nan
  | _, .nan => .nan
  | .inf, .ninf => .nan
  | .ninf, .inf => .nan
  | .inf, _ => .inf
  | _, .inf => .inf
  | .ninf, _ => .ninf
  | _, .ninf => .ninf

/-- Numpy multiplication on extended reals (NaN propagates; `0 · ∞` is
NaN; otherwise infinities keep the product's sign). -/
noncomputable def npMul : NpVal ℝ → NpVal ℝ → NpVal ℝ
  | .finite x, .finite y => .finite (x * y)
  | .nan, _ => .nan
  | _, .nan => .nan
  | .finite x, .inf => if x = 0 then .nan else if 0 < x then .inf else .ninf
  | .finite x, .ninf => if x = 0 then .nan else if 0 < x then .ninf else .inf
  | .inf, .finite y => if y = 0 then .nan else if 0 < y then .inf else .ninf
  | .ninf, .finite y => if y = 0 then .nan else if 0 < y then .ninf else .inf
  | .inf, .inf => .inf
  | .inf, .ninf => .ninf
  | .ninf, .inf => .ninf
  | .ninf, .ninf => .inf

/-- Sum of squares of an amplitude vector, `np.sum(states**2)`, over the
extended reals. -/
noncomputable def npSumSq (states : List (NpVal ℝ)) : NpVal ℝ :=
  states.foldr (fun v acc => npAdd (npMul v v) acc) (.finite 0)

/-- `encoding.get_numQubits(state)` (src/encoding.py lines 85-96):
`int(np.log2(len(state)))`.  Python's `len` of a numpy array is its first
axis; `int(np.log2 n)` truncates, i.e. is `Nat.log2 n` for `n ≥ 1`. -/
def get_numQubits (state : NpArray) : Nat :=
  intLog2 (state.shape.headD 0)

/-- The three result shapes `encode` can produce on a rank-1 signal: a
single amplitude vector with a scalar norm (unpatched branch, lines
118-122), an amplitude vector with a per-element norm vector (the
`patch_shape == signal.shape` branch, where `axes = ()` so
`np.sum(patches, axis=())` leaves the array unreduced), or a batch of
per-patch amplitude vectors with per-patch norms (lines 125-130). -/
inductive EncResult where
  | single (states : List (NpVal ℝ)) (norm : ℚ)
  | perElement (states : List (NpVal ℝ)) (norms : List ℚ)
  | batch (states : List (List (NpVal ℝ))) (norms : List ℚ)

/-- Unpatched branch of `encoding.encode` (lines 118-122, taken when
`patch_shape is None`): `norms = np.sum(patches)`, `tmp = patches / norms`
with infinities masked to 0, `states = np.sqrt(tmp)`. -/
noncomputable def encodeSingle (patch : List ℚ) : List (NpVal ℝ) × ℚ :=
  let norms := patch.sum
  let tmp := (patch.map (fun x => npDiv x norms)).map maskInf
  (tmp.map (fun v => npSqrt v.toReal), norms)

/-- Batch branch of `encoding.encode` (lines 125-130) for rank-1 patches:
`norms = np.sum(patches, axis=(1,))` is the per-patch sums and
`tmp = patches / norms[:, None]` divides each patch by its own norm. -/
noncomputable def encodeBatch (patches : List (List ℚ)) :
    List (List (NpVal ℝ)) × List ℚ :=
  let norms := patches.map List.sum
  let tmp := List.zipWith
    (fun row n => (row.map (fun x => npDiv x n)).map maskInf) patches norms
  (tmp.map (List.map (fun v => npSqrt v.toReal)), norms)

/-- Branch of `encoding.encode` taken for a rank-1 signal when
`patch_shape` equals the signal shape: `patchify` returns the signal
unpatched, but `patching_flag` (line 114) is still true, so `d = 0`,
`axes = ()`, and line 127's `np.sum(patches, axis=())` performs no
reduction — `norms` is the signal itself and `tmp = patches / norms` is an
element-by-element self-division. -/
noncomputable def encodeFlagEq (signal : List ℚ) : List (NpVal ℝ) × List ℚ :=
  let norms := signal
  let tmp := (List.zipWith npDiv signal norms).map maskInf
  (tmp.map (fun v => npSqrt v.toReal), norms)

/-- `encoding.encode(signal, patch_shape)` (src/encoding.py lines 100-138)
specialised to rank-1 signals, dispatching to the three reachable branches
above; a `patch_shape` that does not divide the signal propagates
`patchify`'s `ValueError`. -/
noncomputable def encode1D (signal : List ℚ) (patch_shape : Option (List Nat)) :
    Except String EncResult :=
  match patch_shape with
  | none => .ok (.single (encodeSingle signal).1 (encodeSingle signal).2)
  | some ps =>
    if ps = [signal.length] then
      .ok (.perElement (encodeFlagEq signal).1 (encodeFlagEq signal).2)
    else
      match ps with
      | [p] =>
        if signal.length % p ≠ 0 then
          .error "Signal shape is not divisible by patch shape: impossible to create patches"
        else
          .ok (.batch (encodeBatch (signal.toChunks p)).1
                      (encodeBatch (signal.toChunks p)).2)
      | _ => .error "operands could not be broadcast together"

/-- `postprocessing.get_freqs(res, n_outcomes)` (src/postprocessing.py
lines 9-24): a length-`2^n` vector with `freqs[k] = count(k) / len(res)`
(unseen outcomes keep 0; this embedding presumes every raw outcome is
below `2^n`, which the measurement stage guarantees). -/
def get_freqs (res : List Nat) (n_outcomes : Nat) : List ℚ :=
  (List.range (2 ^ n_outcomes)).map
    (fun k => (res.count k : ℚ) / (res.length : ℚ))

/-- Truncated real `d`-th root of `n`, the value of
`int(np.power(len, 1.0/d))` idealised to exact arithmetic (the code only
ever calls it with `d = 1`, where it is `n` itself). -/
def introot (n d : Nat) : Nat :=
  ((List.range (n + 1)).filter (fun k => k ^ d ≤ n)).foldr max 0

/-- Python's `len` of a numpy array: the length of its first axis. -/
def npLen (a : NpArray) : Nat :=
  a.shape.headD 0

/-- Numpy broadcasting multiplication `x * y` in the shapes this pipeline
reaches: a 0-d scalar on the right, a length-1 vector on the right, or two
arrays of identical shape; anything else fails to broadcast. -/
def npMulBroadcast (x y : NpArray) : Except String NpArray :=
  if y.shape = [] then .ok ⟨x.shape, x.data.map (· * y.data.headD 0)⟩
  else if y.shape = [1] then .ok ⟨x.shape, x.data.map (· * y.data.headD 0)⟩
  else if x.shape = y.shape then .ok ⟨x.shape, List.zipWith (· * ·) x.data y.data⟩
  else .error "operands could not be broadcast together"

/-- `postprocessing.vec2sig(freqs, d, norm)` (src/postprocessing.py lines
66-86): `out_values = freqs * norm` (numpy broadcasting), reshaped to
`d * (int(len(freqs) ** (1/d)),)`. -/
def vec2sig (freqs : NpArray) (d : Nat) (norm : NpArray) :
    Except String NpArray := do
  let out_values ← npMulBroadcast freqs norm
  .ok (npReshape out_values (List.replicate d (introot (npLen freqs) d)))

/-- `postprocessing.patch_vec2sig(patch_freqs, d, norm)`
(src/postprocessing.py lines 89-110): maps `vec2sig` over the patch
frequency vectors with `d` and `norm` fixed by `functools.partial` — the
*entire* `norm` array is passed unchanged to every per-patch call. -/
def patch_vec2sig (patch_freqs : List NpArray) (d : Nat) (norm : NpArray) :
    Except String (List NpArray) :=
  patch_freqs.mapM (fun f => vec2sig f d norm)

/-- Modelled from the spec (§4.5): the claimed per-patch reconstruction,
`patch i = reshape(frequencies[i] * norms[i], (outcome_side,)*d)`, each
patch scaled only by its own scalar norm, paired by position. -/
def specPatchVec2sig (patch_freqs : List NpArray) (d : Nat) (norms : List ℚ) :
    List NpArray :=
  List.zipWith
    (fun f n => ⟨List.replicate d (introot (npLen f) d), f.data.map (· * n)⟩)
    patch_freqs norms

/-- Unpatched branch of `Resampling_Sim.run` (src/resample_sim.py lines
83-87 and 94-97): on the first call the new frequency vector and shot
count are stored; afterwards
`(old * shots_old + new * shots) / (shots_old + shots)` and the shot
counter grows by `shots`.  The frequency vector returned by the external
simulation contract is taken as an argument. -/
def runSingle (log : Option (List ℚ × Nat)) (new : List ℚ) (shots : Nat) :
    List ℚ × Nat :=
  match log with
  | some (old, S) =>
    (List.zipWith (fun o n => (o * (S : ℚ) + n * (shots : ℚ)) / ((S : ℚ) + (shots : ℚ))) old new,
     S + shots)
  | none => (new, shots)

/-- Patched branch of `Resampling_Sim.run` (src/resample_sim.py lines
77-81 and 89-92): per-patch frequency vectors are rescaled by the new and
old shot counts, added pairwise in `zip` order, and divided by the total
shot count. -/
def runMulti (log : Option (List (List ℚ) × Nat)) (newRes : List (List ℚ))
    (shots : Nat) : List (List ℚ) × Nat :=
  match log with
  | some (old, S) =>
    let new := newRes.map (fun f => f.map (· * (shots : ℚ)))
    let oldScaled := old.map (fun f => f.map (· * (S : ℚ)))
    (((new.zip oldScaled).map
        (fun xy => List.zipWith (fun x y => (x + y) / ((S : ℚ) + (shots : ℚ))) xy.1 xy.2)),
     S + shots)
  | none => (newRes, shots)

/-- Patched measurement pipeline iterated over a sequence of `run` calls:
each call supplies one raw-outcome list per patch plus a shot count, is
converted by `get_freqs` over the fixed `2^n` outcome space (as
`run_circ`/`patch_run_circ` do), and folded through the patched `run`
accumulation branch. -/
def runSeqMulti (n : Nat) (calls : List (List (List Nat) × Nat)) :
    Option (List (List ℚ) × Nat) :=
  calls.foldl
    (fun st call =>
      some (runMulti st (call.1.map (fun r => get_freqs r n)) call.2))
    none

/-- Invariant of the patched logbook: every stored per-patch frequency
vector sums to 1 and lives on the fixed `2^n` outcome space. -/
def FreqInv (n : Nat) (st : Option (List (List ℚ) × Nat)) : Prop :=
  ∀ fs S, st = some (fs, S) → ∀ f ∈ fs, f.sum = 1 ∧ f.length = 2 ^ n

/-- Unpatched branch of `Resampling_Sim.reconstruct` (src/resample_sim.py
lines 102-132, together with `self._input_size = get_numQubits(signal)`
from `__init__`, line 36): `d = len(freqs.shape)`, `vec2sig`, `depatchify`
to the already-current shape, and a final rescaling of every entry by
`2 ** (output_size − input_size)` where both sizes are
`int(np.log2(len(·)))` — Python `len`, i.e. the *first axis* — of the
reconstructed array and of the raw input signal respectively. -/
def reconstruct (signal : NpArray) (freqs : NpArray) (norm : ℚ) :
    Except String NpArray := do
  let input_size := get_numQubits signal
  let d := freqs.shape.length
  let out_sig ← vec2sig freqs d ⟨[], [norm]⟩
  let shape := out_sig.shape
  let sig ← depatchify out_sig shape
  let output_size := get_numQubits sig
  let norm_factor : ℚ := (2 : ℚ) ^ ((output_size : ℤ) - (input_size : ℤ))
  .ok ⟨sig.shape, sig.data.map (· * norm_factor)⟩

/-- Modelled from the spec (claim C4's reading of §4.5): the renormalization
factor `2 ^ (outputQubits − inputQubits)` with both qubit counts taken as
`log2` of the *total* lengths of the post- and pre-transform amplitude
vectors (total sizes, not first axes). -/
def specNormFactor (signal freqs : NpArray) : ℚ :=
  (2 : ℚ) ^ ((intLog2 freqs.data.length : ℤ) - (intLog2 signal.data.length : ℤ))

/-- Abstract circuit operation, the embedding of the qiskit calls made by
the transform builders in src/processing.py: state initialization,
Hadamard stages, (inverse) QFT blocks over explicit qubit ranges, barriers
and measurements. -/
inductive COp where
  | init (state : List ℚ) (qubits : List Nat)
  | h (qubits : List Nat)
  | barrier
  | qft (size : Nat) (qargs : List Nat) (inverse : Bool)
  | measure (qargs cargs : List Nat)
  deriving DecidableEq, Repr

/-- Transform description: quantum register width, classical register
width as requested (an integer, since the code computes it by subtraction
and performs no validation), and the operation sequence. -/
structure Circuit where
  nq : Nat
  nc : ℤ
  ops : List COp
  deriving DecidableEq, Repr

/-- `processing.MD_QFT(size, circuit, nSub, d, inverse)` (src/processing.py
lines 19-41): appends one `size`-qubit QFT per subregister, subregister `i`
starting at qubit `i * nSub`. -/
def MD_QFT (size nSub d : Nat) (inverse : Bool) : List COp :=
  (List.range d).map (fun i => .qft size (List.range' (i * nSub) size) inverse)

/-- `processing.QuDownsample(state, nTilde, Hadamard)` (src/processing.py
lines 46-83).  The source performs no parameter validation and contains no
raise statement, so the embedding always returns `.ok`; `nDown = nEnc −
nTilde` is handed to the classical register as computed.  Negative-length
qubit slices (reachable only for `nDown < 0`, where the external register
constructor would already have rejected the size) are modelled by
`Int.toNat` truncation. -/
def QuDownsample (state : List ℚ) (nTilde : ℤ) (Hadamard : Bool) :
    Except String Circuit :=
  let nEnc : Nat := intLog2 state.length
  let nDown : ℤ := (nEnc : ℤ) - nTilde
  let nD : Nat := nDown.toNat
  .ok { nq := nEnc, nc := nDown,
        ops := [.init state (List.range nEnc)]
          ++ (if Hadamard then [.h (List.range nEnc), .barrier] else [])
          ++ [.qft nEnc (List.range nEnc) false,
              .qft nD (List.range nD) true, .barrier]
          ++ (if Hadamard then [.h (List.range nD)] else [])
          ++ [.measure (List.range nD) (List.range nD)] }

/-- `processing.QuDownsample_MD(state, d, nTilde, Hadamard)`
(src/processing.py lines 132-170).  `n0 = nEnc // d` is a plain floor
division — no divisibility check exists — and, as in `QuDownsample`, the
source contains no raise statement, so every input produces `.ok`. -/
def QuDownsample_MD (state : List ℚ) (d : Nat) (nTilde : ℤ) (Hadamard : Bool) :
    Except String Circuit :=
  let nEnc : Nat := intLog2 state.length
  let nDown : ℤ := (nEnc : ℤ) - (d : ℤ) * nTilde
  let n0 : Nat := nEnc / d
  let nDd : Nat := (nDown / (d : ℤ)).toNat
  .ok { nq := nEnc, nc := nDown,
        ops := [.init state (List.range nEnc)]
          ++ (if Hadamard then [.h (List.range nEnc), .barrier] else [])
          ++ MD_QFT (nEnc / d) n0 d false ++ [.barrier]
          ++ MD_QFT nDd n0 d true ++ [.barrier]
          ++ (if Hadamard then
                (List.range d).map (fun i => .h (List.range' (i * n0) nDd))
              else [])
          ++ (List.range d).map (fun (i : Nat) =>
                let cs := (((i : ℕ) : ℤ) * nDown / (d : ℤ)).toNat
                let ce := ((((i : ℕ) : ℤ) + 1) * nDown / (d : ℤ)).toNat
                .measure (List.range' (i * n0) nDd) (List.range' cs (ce - cs))) }

/-! Helper lemmas shared by the claim theorems below. -/

/-- Sum of squares of a list of finite extended reals is the finite sum of
the squares. -/
theorem npSumSq_map_finite (g : ℚ → ℝ) (l : List ℚ) :
    npSumSq (l.map (fun x => .finite (g x)))
      = .finite ((l.map (fun x => g x * g x)).sum) := by
  induction l with
  | nil => rfl
  | cons a t ih =>
    have h1 : npSumSq ((a :: t).map (fun x => NpVal.finite (g x)))
        = npAdd (npMul (.finite (g a)) (.finite (g a)))
            (npSumSq (t.map (fun x => NpVal.finite (g x)))) := rfl
    rw [h1, ih]
    rfl

/-- Folding `max` over a list bounded by the seed leaves the seed. -/
theorem foldr_max_le (l : List Nat) (a : Nat) (h : ∀ x ∈ l, x ≤ a) :
    l.foldr max a = a := by
  induction l with
  | nil => rfl
  | cons x t ih =>
    have hx := h x (by simp)
    rw [List.foldr_cons, ih (fun y hy => h y (by simp [hy]))]
    omega

/-- The truncated first root is the number itself. -/
theorem introot_one (n : Nat) : introot n 1 = n := by
  unfold introot
  rw [List.filter_eq_self.mpr (fun k hk => by
    simpa [pow_one] using Nat.lt_succ_iff.mp (List.mem_range.mp hk))]
  rw [List.range_succ, List.foldr_append, List.foldr_cons, List.foldr_nil]
  rw [Nat.max_zero]
  exact foldr_max_le _ _ (fun x hx => Nat.le_of_lt (List.mem_range.mp hx))

/-- Sum over an index range of the indicator of one index below the bound. -/
theorem sum_range_ite (M a : Nat) (ha : a < M) :
    ((List.range M).map (fun k => if k = a then (1 : ℚ) else 0)).sum = 1 := by
  induction M with
  | zero => omega
  | succ M ih =>
    rw [List.range_succ, List.map_append, List.sum_append]
    rcases Nat.lt_succ_iff_lt_or_eq.mp ha with h | h
    · rw [ih h]
      simp [Nat.ne_of_gt h]
    · subst h
      rw [List.sum_eq_zero (fun x hx => ?_)]
      · simp
      · obtain ⟨k, hk, rfl⟩ := List.mem_map.mp hx
        rw [if_neg (Nat.ne_of_lt (List.mem_range.mp hk))]

/-- Occurrence counts over the full outcome range sum to the number of
observations when every observation is in range. -/
theorem sum_range_count (M : Nat) (res : List Nat) (h : ∀ x ∈ res, x < M) :
    ((List.range M).map (fun k => (res.count k : ℚ))).sum = res.length := by
  induction res with
  | nil => simp
  | cons a t ih =>
    have e1 : (List.range M).map (fun k => ((a :: t).count k : ℚ))
        = (List.range M).map
            (fun k => ((t.count k : ℚ) + if k = a then (1 : ℚ) else 0)) := by
      refine List.map_congr_left (fun k _ => ?_)
      rw [List.count_cons]
      push_cast
      congr 1
      by_cases hk : k = a
      · simp [hk]
      · rw [if_neg (by simp only [beq_iff_eq]; exact fun hh => hk hh.symm),
          if_neg hk]
    rw [e1, List.sum_map_add, ih (fun x hx => h x (by simp [hx])),
      sum_range_ite M a (h a (by simp))]
    push_cast [List.length_cons]
    ring

/-- Empirical frequencies from a nonempty in-range outcome list sum to 1. -/
theorem get_freqs_sum_one (n : Nat) (res : List Nat) (hne : res ≠ [])
    (h : ∀ x ∈ res, x < 2 ^ n) : (get_freqs res n).sum = 1 := by
  unfold get_freqs
  have e1 : (List.range (2 ^ n)).map
        (fun k => (res.count k : ℚ) / (res.length : ℚ))
      = (List.range (2 ^ n)).map
        (fun k => (res.count k : ℚ) * ((res.length : ℚ))⁻¹) := by
    refine List.map_congr_left (fun k _ => ?_)
    rw [div_eq_mul_inv]
  rw [e1, List.sum_map_mul_right, sum_range_count _ _ h,
    mul_inv_cancel₀ (Nat.cast_ne_zero.mpr
      (fun h0 => hne (List.length_eq_zero.mp h0)))]

/-- Summing the shot-weighted average of two equal-length vectors divides
the sum of their sums. -/
theorem sum_zipWith_add_div (c : ℚ) (a b : List ℚ) (h : a.length = b.length) :
    (List.zipWith (fun x y => (x + y) / c) a b).sum = (a.sum + b.sum) / c := by
  induction a generalizing b with
  | nil =>
    cases b with
    | nil => simp
    | cons y t => simp at h
  | cons x ta ih =>
    cases b with
    | nil => simp at h
    | cons y tb =>
      rw [List.zipWith_cons_cons, List.sum_cons, List.sum_cons, List.sum_cons,
        ih tb (by simpa using h)]
      ring

/-- One patched `run` call preserves the logbook frequency invariant. -/
theorem freqInv_step (n : Nat) (st : Option (List (List ℚ) × Nat))
    (ress : List (List Nat)) (shots : Nat) (hshots : 0 < shots)
    (hlen : ∀ r ∈ ress, r.length = shots)
    (hrange : ∀ r ∈ ress, ∀ x ∈ r, x < 2 ^ n)
    (hst : FreqInv n st) :
    FreqInv n (some (runMulti st (ress.map (fun r => get_freqs r n)) shots)) := by
  have hfreq : ∀ f ∈ ress.map (fun r => get_freqs r n),
      f.sum = 1 ∧ f.length = 2 ^ n := by
    intro f hf
    obtain ⟨r, hr, rfl⟩ := List.mem_map.mp hf
    have hne : r ≠ [] := by
      intro h0
      have hl := hlen r hr
      rw [h0] at hl
      simp at hl
      omega
    refine ⟨get_freqs_sum_one n r hne (hrange r hr), ?_⟩
    rw [get_freqs, List.length_map, List.length_range]
  intro fs S heq f hf
  cases st with
  | none =>
    rw [runMulti] at heq
    simp only [Option.some.injEq, Prod.mk.injEq] at heq
    obtain ⟨rfl, rfl⟩ := heq
    exact hfreq f hf
  | some p =>
    obtain ⟨old, S0⟩ := p
    rw [runMulti] at heq
    simp only [Option.some.injEq, Prod.mk.injEq] at heq
    obtain ⟨rfl, rfl⟩ := heq
    obtain ⟨xy, hxy, rfl⟩ := List.mem_map.mp hf
    obtain ⟨x, y⟩ := xy
    obtain ⟨hx, hy⟩ := List.of_mem_zip hxy
    obtain ⟨xf, hxf, rfl⟩ := List.mem_map.mp hx
    obtain ⟨yf, hyf, rfl⟩ := List.mem_map.mp hy
    obtain ⟨hxs, hxl⟩ := hfreq xf hxf
    obtain ⟨hys, hyl⟩ := hst old S0 rfl yf hyf
    have hc : ((S0 : ℚ) + (shots : ℚ)) ≠ 0 := by
      have : (0 : ℚ) < (S0 : ℚ) + (shots : ℚ) := by
        have h1 : (0 : ℚ) ≤ (S0 : ℚ) := by exact_mod_cast Nat.zero_le S0
        have h2 : (0 : ℚ) < (shots : ℚ) := by exact_mod_cast hshots
        linarith
      exact ne_of_gt this
    constructor
    · rw [sum_zipWith_add_div _ _ _ (by
        rw [List.length_map, List.length_map, hxl, hyl])]
      have exs : (xf.map (· * (shots : ℚ))).sum = (shots : ℚ) := by
        rw [List.sum_map_mul_right]
        simp only [List.map_id']
        rw [hxs, one_mul]
      have eys : (yf.map (· * (S0 : ℚ))).sum = (S0 : ℚ) := by
        rw [List.sum_map_mul_right]
        simp only [List.map_id']
        rw [hys, one_mul]
      rw [exs, eys, add_comm]
      exact div_self hc
    · rw [List.length_zipWith, List.length_map, List.length_map, hxl, hyl]
      simp

/-- Every prefix of a patched call sequence leaves the logbook invariant
intact. -/
theorem runSeqMulti_inv (n : Nat) (calls : List (List (List Nat) × Nat))
    (hpos : ∀ c ∈ calls, 0 < c.2)
    (hlen : ∀ c ∈ calls, ∀ r ∈ c.1, r.length = c.2)
    (hrange : ∀ c ∈ calls, ∀ r ∈ c.1, ∀ x ∈ r, x < 2 ^ n) :
    ∀ k, FreqInv n (runSeqMulti n (calls.take k)) := by
  intro k
  induction k with
  | zero =>
    intro fs S heq
    simp [runSeqMulti] at heq
  | succ k ih =>
    by_cases hk : k < calls.length
    · have e1 : calls.take (k + 1) = calls.take k ++ [calls.get ⟨k, hk⟩] := by
        rw [List.take_succ, List.getElem?_eq_getElem hk]
        rfl
      rw [runSeqMulti, e1, List.foldl_append]
      have e2 : List.foldl (fun st call =>
          some (runMulti st (call.1.map (fun r => get_freqs r n)) call.2))
          none (calls.take k) = runSeqMulti n (calls.take k) := rfl
      rw [List.foldl_cons, List.foldl_nil, e2]
      have hmem : calls.get ⟨k, hk⟩ ∈ calls := List.get_mem _ _ hk
      exact freqInv_step n _ _ _ (hpos _ hmem) (hlen _ hmem) (hrange _ hmem) ih
    · rw [List.take_of_length_le (by omega)]
      rw [List.take_of_length_le (by omega)] at ih
      exact ih


/-! Claim theorems. -/

/-- C1: the claimed exact round trip `depatchify (patchify S P) S.shape = S`
fails for rank 3: `depatchify` applies the same `moveaxis` permutation as
`patchify` instead of its inverse, so for the signal `0..7` of shape
(2,2,2) with patch shape (1,1,1) the reassembled signal comes back with its
last two axes transposed, `[0,2,1,3,4,6,5,7]`, not the original
`[0,1,2,3,4,5,6,7]`.  (For ranks 1 and 2 the permutation is an involution
and the round trip does hold, which is why the bug is silent on images.) -/
theorem depatchify_patchify_rank3_transposes :
    (patchify ⟨[2,2,2], [0,1,2,3,4,5,6,7]⟩ (some [1,1,1])).bind
        (fun p => depatchify p [2,2,2])
      = .ok ⟨[2,2,2], [0,2,1,3,4,6,5,7]⟩ ∧
    (NpArray.mk [2,2,2] [0,2,1,3,4,6,5,7]) ≠ ⟨[2,2,2], [0,1,2,3,4,5,6,7]⟩ := by
  decide


/-- C2: on a subsequent `run` call, stored frequencies become
`(F_old * S_old + F_new * S_new) / (S_old + S_new)` componentwise and the
stored shot count becomes `S_old + S_new`, in the patched branch (with
patches paired by position) and in the unpatched branch alike. -/
theorem run_accumulates_shot_weighted_average
    (Fold Fnew : List (List ℚ)) (fold fnew : List ℚ) (S s : Nat) (i j : Nat)
    (hi : i < Fold.length) (hi2 : i < Fnew.length)
    (hj : j < (Fold.getD i []).length) (hj2 : j < (Fnew.getD i []).length)
    (hj3 : j < fold.length) (hj4 : j < fnew.length) :
    (runMulti (some (Fold, S)) Fnew s).2 = S + s ∧
    ((runMulti (some (Fold, S)) Fnew s).1.getD i []).getD j 0
      = ((Fold.getD i []).getD j 0 * (S : ℚ) + (Fnew.getD i []).getD j 0 * (s : ℚ))
          / ((S : ℚ) + (s : ℚ)) ∧
    (runSingle (some (fold, S)) fnew s).2 = S + s ∧
    (runSingle (some (fold, S)) fnew s).1.getD j 0
      = (fold.getD j 0 * (S : ℚ) + fnew.getD j 0 * (s : ℚ)) / ((S : ℚ) + (s : ℚ)) := by
  rw [List.getD_eq_getElem _ _ hi] at hj
  rw [List.getD_eq_getElem _ _ hi2] at hj2
  refine ⟨rfl, ?_, rfl, ?_⟩
  · have step01 : (runMulti (some (Fold, S)) Fnew s).1.getD i []
        = List.zipWith (fun x y => (x + y) / ((S : ℚ) + (s : ℚ)))
            ((Fnew.get ⟨i, hi2⟩).map (· * (s : ℚ)))
            ((Fold.get ⟨i, hi⟩).map (· * (S : ℚ))) := by
      show (((Fnew.map (fun f => f.map (· * (s : ℚ)))).zip
            (Fold.map (fun f => f.map (· * (S : ℚ))))).map
          (fun xy => List.zipWith
            (fun x y => (x + y) / ((S : ℚ) + (s : ℚ))) xy.1 xy.2)).getD i [] = _
      rw [List.getD_eq_getElem _ _ (by simp; omega), List.getElem_map,
        List.getElem_zip]
      simp
    rw [step01,
      List.getD_eq_getElem _ _ (by simp [List.length_zipWith]; omega),
      List.getElem_zipWith, List.getElem_map, List.getElem_map,
      List.getD_eq_getElem _ _ hi, List.getD_eq_getElem _ _ hi2,
      List.getD_eq_getElem _ _ hj, List.getD_eq_getElem _ _ hj2]
    simp only [List.get_eq_getElem]
    ring
  · have hj5 : j < (List.zipWith
        (fun o n => (o * (S : ℚ) + n * (s : ℚ)) / ((S : ℚ) + (s : ℚ))) fold fnew).length := by
      rw [List.length_zipWith]; omega
    show (List.zipWith _ fold fnew).getD j 0 = _
    rw [List.getD_eq_getElem _ _ hj5, List.getElem_zipWith,
      List.getD_eq_getElem _ _ hj3, List.getD_eq_getElem _ _ hj4]


/-- Witness for C2 at `F_old = [[1,0]]`, `F_new = [[1/2,1/2]]`,
`S_old = S_new = 2`, patch 0, component 0. -/
theorem run_accumulates_shot_weighted_average_witness :
    ((0 : Nat) < ([[(1 : ℚ), 0]] : List (List ℚ)).length) ∧
    ((runMulti (some ([[(1 : ℚ), 0]], 2)) [[(1 : ℚ)/2, 1/2]] 2).2 = 2 + 2 ∧
      ((runMulti (some ([[(1 : ℚ), 0]], 2)) [[(1 : ℚ)/2, 1/2]] 2).1.getD 0 []).getD 0 0
        = ((([[(1 : ℚ), 0]] : List (List ℚ)).getD 0 []).getD 0 0 * (2 : ℚ)
            + (([[(1 : ℚ)/2, 1/2]] : List (List ℚ)).getD 0 []).getD 0 0 * (2 : ℚ))
            / ((2 : ℚ) + (2 : ℚ)) ∧
      (runSingle (some ([(1 : ℚ), 0], 2)) [(1 : ℚ)/2, 1/2] 2).2 = 2 + 2 ∧
      (runSingle (some ([(1 : ℚ), 0], 2)) [(1 : ℚ)/2, 1/2] 2).1.getD 0 0
        = (([(1 : ℚ), 0].getD 0 0) * (2 : ℚ) + ([(1 : ℚ)/2, 1/2].getD 0 0) * (2 : ℚ))
            / ((2 : ℚ) + (2 : ℚ))) :=
  ⟨by decide,
   run_accumulates_shot_weighted_average [[(1 : ℚ), 0]] [[(1 : ℚ)/2, 1/2]] [(1 : ℚ), 0] [(1 : ℚ)/2, 1/2] 2 2 0 0
     (by decide) (by decide) (by decide) (by decide) (by decide) (by decide)⟩


/-- C3: the claim says an all-zero patch encodes to an all-zero amplitude
vector with no non-finite entries; the code disagrees.  `0/0` is NaN, and
the masking step `tmp[np.isinf(tmp)] = 0` tests `isinf`, which is false on
NaN, so the NaNs survive `np.sqrt` and `encode` returns `[nan, nan]` (the
norm-0 half of the claim does hold). -/
theorem encode_zero_patch_returns_nan :
    encode1D [0, 0] none = .ok (.single [.nan, .nan] 0) := by
  norm_num [encode1D, encodeSingle, npDiv, maskInf, NpVal.toReal, npSqrt]


/-- C4 counterexample: for the 2×2 signal of ones with stored frequency
vector `[1/4,1/4,1/4,1/4]` and norm 4, `reconstruct` scales by
`2^(2−1) = 2` — `input_size` is `int(log2(len(signal)))`, the *first axis*
of the raw signal (here `log2 2 = 1`), not `log2` of the total
amplitude-vector length (`log2 4 = 2`) as the claim states — so the code's
output `[2,2,2,2]` differs from the claim's `[1,1,1,1]`. -/
theorem reconstruct_qubit_counts_not_total_lengths :
    reconstruct ⟨[2,2], [1,1,1,1]⟩ ⟨[4], [1/4, 1/4, 1/4, 1/4]⟩ 4
      = .ok ⟨[4], [2,2,2,2]⟩ ∧
    specNormFactor ⟨[2,2], [1,1,1,1]⟩ ⟨[4], [1/4, 1/4, 1/4, 1/4]⟩ = 1 ∧
    reconstruct ⟨[2,2], [1,1,1,1]⟩ ⟨[4], [1/4, 1/4, 1/4, 1/4]⟩ 4
      ≠ .ok ⟨[4], (((⟨[4], [1/4, 1/4, 1/4, 1/4]⟩ : NpArray).data.map (· * 4)).map
          (· * specNormFactor ⟨[2,2], [1,1,1,1]⟩ ⟨[4], [1/4, 1/4, 1/4, 1/4]⟩))⟩ := by
  refine ⟨?_, ?_, ?_⟩ <;>
    norm_num [reconstruct, get_numQubits, intLog2, log2Aux, vec2sig, npMulBroadcast,
      npReshape, npLen, introot, depatchify, specNormFactor,
      List.range, List.range.loop, List.filter, List.foldr, Bind.bind, Except.bind, Pure.pure, Except.pure]


/-- C4 amended: for an unpatched reconstruction from a 1-D stored frequency
vector, `reconstruct` scales `freqs * norm` by
`2 ^ (intLog2 (length of the frequency vector) −
intLog2 (first-axis length of the raw input signal))`; the two exponents
are `log2` of total amplitude-vector lengths only when the signal itself is
one-dimensional. -/
theorem reconstruct_scales_by_first_axis_log2 (signal freqs : NpArray) (norm : ℚ)
    (hshape : freqs.shape = [freqs.data.length]) (hpos : 0 < freqs.data.length) :
    reconstruct signal freqs norm
      = .ok ⟨[freqs.data.length],
          (freqs.data.map (· * norm)).map
            (· * (2 : ℚ) ^ ((intLog2 freqs.data.length : ℤ)
                - (intLog2 (signal.shape.headD 0) : ℤ)))⟩ := by
  obtain ⟨fsh, fdata⟩ := freqs
  simp only at hshape
  subst hshape
  simp [reconstruct, vec2sig, npMulBroadcast, npReshape, depatchify,
    get_numQubits, npLen, introot_one, Bind.bind, Except.bind]


/-- Witness for the amended C4 at a 2×2 signal and a length-4 frequency
vector. -/
theorem reconstruct_scales_by_first_axis_log2_witness :
    ((⟨[4], [(1 : ℚ), 0, 0, 0]⟩ : NpArray).shape
        = [(⟨[4], [(1 : ℚ), 0, 0, 0]⟩ : NpArray).data.length]) ∧
    (0 < (⟨[4], [(1 : ℚ), 0, 0, 0]⟩ : NpArray).data.length) ∧
    reconstruct ⟨[2, 2], [(1 : ℚ), 1, 1, 1]⟩ ⟨[4], [(1 : ℚ), 0, 0, 0]⟩ 4
      = .ok ⟨[(⟨[4], [(1 : ℚ), 0, 0, 0]⟩ : NpArray).data.length],
          (((⟨[4], [(1 : ℚ), 0, 0, 0]⟩ : NpArray).data.map (· * 4)).map
            (· * (2 : ℚ) ^ ((intLog2 (⟨[4], [(1 : ℚ), 0, 0, 0]⟩ : NpArray).data.length : ℤ)
                - (intLog2 ((⟨[2, 2], [(1 : ℚ), 1, 1, 1]⟩ : NpArray).shape.headD 0) : ℤ))))⟩ :=
  ⟨by decide, by decide,
   reconstruct_scales_by_first_axis_log2 ⟨[2, 2], [(1 : ℚ), 1, 1, 1]⟩ ⟨[4], [(1 : ℚ), 0, 0, 0]⟩ 4
     (by decide) (by decide)⟩


/-- C5: the claim says reconstruction pairs `frequencies[i]` with its own
scalar `norms[i]`; instead `patch_vec2sig` fixes the *entire* norms array
through `functools.partial` and multiplies every patch frequency vector by
it elementwise: for frequencies `[[1/2,1/2],[1,0]]` and norms `[2,4]` the
code yields `[[1,2],[2,0]]` where the claimed per-patch pairing yields
`[[1,1],[4,0]]`. -/
theorem patch_vec2sig_multiplies_by_whole_norms_array :
    patch_vec2sig [⟨[2], [1/2, 1/2]⟩, ⟨[2], [1, 0]⟩] 1 ⟨[2], [2, 4]⟩
      = .ok [⟨[2], [1, 2]⟩, ⟨[2], [2, 0]⟩] ∧
    Except.ok (specPatchVec2sig [⟨[2], [1/2, 1/2]⟩, ⟨[2], [1, 0]⟩] 1 [2, 4])
      ≠ (patch_vec2sig [⟨[2], [1/2, 1/2]⟩, ⟨[2], [1, 0]⟩] 1 ⟨[2], [2, 4]⟩ : Except String _) := by
  constructor
  · norm_num [patch_vec2sig, vec2sig, npMulBroadcast, npReshape, npLen, introot,
      List.mapM, List.mapM.loop, List.range, List.range.loop, List.filter, List.foldr,
      Bind.bind, Except.bind, Pure.pure, Except.pure]
  · norm_num [patch_vec2sig, vec2sig, npMulBroadcast, npReshape, npLen, introot,
      specPatchVec2sig,
      List.mapM, List.mapM.loop, List.range, List.range.loop, List.filter, List.foldr,
      Bind.bind, Except.bind, Pure.pure, Except.pure]


/-- C6: for every patch with non-negative entries and non-zero norm,
`encode` returns norm `sum(patch)` and amplitudes
`sqrt(patch / norm)` elementwise, and the amplitude vector satisfies
`sum(amplitude^2) = 1` exactly. -/
theorem encode_nonzero_patch_unit_sum_squares (patch : List ℚ) (hnn : ∀ x ∈ patch, 0 ≤ x)
    (hnz : patch.sum ≠ 0) :
    encode1D patch none
      = .ok (.single
          (patch.map (fun x : ℚ =>
            .finite (Real.sqrt ((x : ℝ) / ((patch.sum : ℚ) : ℝ)))))
          patch.sum) ∧
    npSumSq (patch.map (fun x : ℚ =>
        NpVal.finite (Real.sqrt ((x : ℝ) / ((patch.sum : ℚ) : ℝ))))) = .finite 1 := by
  have hpos : 0 < patch.sum := lt_of_le_of_ne (List.sum_nonneg hnn) (Ne.symm hnz)
  have hcast : (0 : ℝ) < ((patch.sum : ℚ) : ℝ) := by exact_mod_cast hpos
  constructor
  · show Except.ok (EncResult.single (encodeSingle patch).1 (encodeSingle patch).2)
        = _
    unfold encodeSingle
    dsimp only
    refine congrArg (fun st => Except.ok (EncResult.single st patch.sum)) ?_
    rw [List.map_map, List.map_map]
    refine List.map_congr_left (fun x hx => ?_)
    simp only [Function.comp]
    rw [npDiv, if_neg hnz]
    show npSqrt (.finite ((x / patch.sum : ℚ) : ℝ)) = _
    rw [npSqrt, Rat.cast_div,
      if_neg (not_lt.mpr (div_nonneg (by exact_mod_cast hnn x hx) hcast.le))]
  · rw [npSumSq_map_finite]
    congr 1
    have e1 : patch.map (fun x : ℚ =>
          Real.sqrt ((x : ℝ) / ((patch.sum : ℚ) : ℝ)) *
          Real.sqrt ((x : ℝ) / ((patch.sum : ℚ) : ℝ)))
        = patch.map (fun x : ℚ => (x : ℝ) * (((patch.sum : ℚ) : ℝ))⁻¹) := by
      refine List.map_congr_left (fun x hx => ?_)
      rw [Real.mul_self_sqrt (div_nonneg (by exact_mod_cast hnn x hx) hcast.le),
        div_eq_mul_inv]
    rw [e1, List.sum_map_mul_right]
    have e2 : (patch.map (fun x : ℚ => (x : ℝ))).sum = ((patch.sum : ℚ) : ℝ) := by
      rw [Rat.cast_list_sum]
    rw [e2, mul_inv_cancel₀ (ne_of_gt hcast)]


/-- Witness for C6 at the patch `[1,1,1,1]`. -/
theorem encode_nonzero_patch_unit_sum_squares_witness :
    (∀ x ∈ [(1 : ℚ), 1, 1, 1], 0 ≤ x) ∧ List.sum [(1 : ℚ), 1, 1, 1] ≠ 0 ∧
    npSumSq (([(1 : ℚ), 1, 1, 1]).map (fun x : ℚ =>
        NpVal.finite (Real.sqrt ((x : ℝ)
          / ((List.sum [(1 : ℚ), 1, 1, 1] : ℚ) : ℝ))))) = .finite 1 := by
  have h1 : ∀ x ∈ [(1 : ℚ), 1, 1, 1], 0 ≤ x := by norm_num
  have h2 : List.sum [(1 : ℚ), 1, 1, 1] ≠ 0 := by norm_num
  exact ⟨h1, h2, (encode_nonzero_patch_unit_sum_squares [(1 : ℚ), 1, 1, 1] h1 h2).2⟩


/-- C7: over any sequence of patched `run` calls with positive shot counts,
full-shot outcome lists and in-range outcomes, every stored per-patch
frequency vector sums to 1 after every call, and the stored shot count
strictly increases call over call. -/
theorem run_sequence_freqs_sum_one_and_shots_increase (n : Nat) (calls : List (List (List Nat) × Nat))
    (hpos : ∀ c ∈ calls, 0 < c.2)
    (hlen : ∀ c ∈ calls, ∀ r ∈ c.1, r.length = c.2)
    (hrange : ∀ c ∈ calls, ∀ r ∈ c.1, ∀ x ∈ r, x < 2 ^ n)
    (k : Nat) (hk : k < calls.length) :
    ∃ fs S, runSeqMulti n (calls.take (k + 1)) = some (fs, S) ∧
      (∀ f ∈ fs, f.sum = 1) ∧
      (runSeqMulti n (calls.take k)).elim (0 < S) (fun st => st.2 < S) := by
  have e1 : calls.take (k + 1) = calls.take k ++ [calls.get ⟨k, hk⟩] := by
    rw [List.take_succ, List.getElem?_eq_getElem hk]
    rfl
  have e2 : runSeqMulti n (calls.take (k + 1))
      = some (runMulti (runSeqMulti n (calls.take k))
          ((calls.get ⟨k, hk⟩).1.map (fun r => get_freqs r n))
          (calls.get ⟨k, hk⟩).2) := by
    rw [runSeqMulti, e1, List.foldl_append, List.foldl_cons, List.foldl_nil]
    rfl
  refine ⟨_, _, e2.trans rfl, ?_, ?_⟩
  · intro f hf
    exact (runSeqMulti_inv n calls hpos hlen hrange (k + 1) _ _ e2 f hf).1
  · have hmem : calls.get ⟨k, hk⟩ ∈ calls := List.get_mem _ _ hk
    have hs := hpos _ hmem
    cases hst : runSeqMulti n (calls.take k) with
    | none => exact hs
    | some p =>
      obtain ⟨old, S0⟩ := p
      exact Nat.lt_add_of_pos_right hs


/-- Witness for C7: two patches, two calls of two shots each over a 1-qubit
outcome space. -/
theorem run_sequence_freqs_sum_one_and_shots_increase_witness :
    (∀ c ∈ [([[0, 1], [1, 1]], 2), ([[0, 0], [1, 0]], 2)], 0 < c.2) ∧
    (∃ fs S, runSeqMulti 1
        (([([[0, 1], [1, 1]], 2), ([[0, 0], [1, 0]], 2)] :
          List (List (List Nat) × Nat)).take (1 + 1)) = some (fs, S) ∧
      (∀ f ∈ fs, f.sum = 1) ∧
      (runSeqMulti 1 (([([[0, 1], [1, 1]], 2), ([[0, 0], [1, 0]], 2)] :
          List (List (List Nat) × Nat)).take 1)).elim (0 < S)
        (fun st => st.2 < S)) :=
  ⟨by decide,
   run_sequence_freqs_sum_one_and_shots_increase 1 [([[0, 1], [1, 1]], 2), ([[0, 0], [1, 0]], 2)]
     (by decide) (by decide) (by decide) 1 (by decide)⟩


/-- C8: the claim says `encode(S, patch_shape=S.shape)` equals
`encode(S, None)`; the code disagrees.  With `patch_shape = S.shape` the
`patching_flag` on line 114 is still true, so `d = 0`, `axes = ()`, and
`np.sum(patches, axis=())` performs no reduction: the norms come back as
the whole signal and every entry is divided by itself.  For `S = [1, 3]`
this returns amplitudes `[1, 1]` with norms `[1, 3]`, not the single-patch
amplitudes with scalar norm 4 that `patch_shape=None` produces. -/
theorem encode_full_patch_shape_differs_from_none :
    encode1D [1, 3] (some [2]) = .ok (.perElement [.finite 1, .finite 1] [1, 3]) ∧
    encode1D [1, 3] (some [2]) ≠ encode1D [1, 3] none := by
  constructor
  · norm_num [encode1D, encodeFlagEq, npDiv, maskInf, NpVal.toReal, npSqrt,
      Real.sqrt_one]
  · intro h
    norm_num [encode1D, encodeFlagEq, encodeSingle, npDiv, maskInf, NpVal.toReal,
      npSqrt] at h
    exact EncResult.noConfusion h


/-- C9 counterexample: `QuDownsample` with `nDown = 0` (state of length 2,
`nTilde = 1`) and `QuDownsample_MD` with `nEnc = 3` not a multiple of
`d = 2` both build and return a transform description — neither raises any
`ConfigError` at build time; src/processing.py contains no validation or
raise statement at all. -/
theorem downsample_builders_raise_no_config_error :
    (∃ c, QuDownsample [1, 0] 1 true = .ok c) ∧
    (∃ c, QuDownsample_MD [1, 0, 0, 0, 0, 0, 0, 0] 2 0 true = .ok c) :=
  ⟨⟨_, rfl⟩, ⟨_, rfl⟩⟩


/-- C9 amended: the builders validate nothing: for every state, dimension
count and `nTilde` they succeed, with quantum register width `nEnc` and a
classical register width `nEnc − nTilde` (resp. `nEnc − d*nTilde`) handed
to the external register constructor as computed; when `d` does not divide
`nEnc` the subregister width is silently floored. -/
theorem downsample_builders_always_build (state : List ℚ) (d : Nat) (nTilde : ℤ) (Hadamard : Bool) :
    (∃ c, QuDownsample state nTilde Hadamard = .ok c ∧
        c.nq = intLog2 state.length ∧ c.nc = (intLog2 state.length : ℤ) - nTilde) ∧
    (∃ c, QuDownsample_MD state d nTilde Hadamard = .ok c ∧
        c.nq = intLog2 state.length ∧
        c.nc = (intLog2 state.length : ℤ) - d * nTilde) :=
  ⟨⟨_, rfl, rfl, rfl⟩, ⟨_, rfl, rfl, rfl⟩⟩


/-- C10: for an explicit same-rank positive patch shape different from the
signal shape, `patchify` raises (`ValueError`, the spec's `ShapeError`) if
and only if some axis of the signal is not exactly divisible by the
corresponding patch-shape entry. -/
theorem patchify_shape_error_iff_axis_indivisible (shape ps : List Nat) (data : List ℚ)
    (hlen : ps.length = shape.length) (hpos : ∀ x ∈ ps, 0 < x)
    (hne : ps ≠ shape) :
    (∃ e, patchify ⟨shape, data⟩ (some ps) = .error e) ↔
      ∃ i < shape.length, shape.getD i 0 % ps.getD i 1 ≠ 0 := by
  have hne' : shape ≠ ps := fun h => hne h.symm
  have key : ((List.zipWith (· % ·) shape ps).any (· ≠ 0) = true) ↔
      ∃ i < shape.length, shape.getD i 0 % ps.getD i 1 ≠ 0 := by
    rw [List.any_eq_true]
    constructor
    · rintro ⟨x, hx, hpx⟩
      rw [List.mem_iff_getElem] at hx
      obtain ⟨i, hilt, hieq⟩ := hx
      have hi1 : i < shape.length := by
        rw [List.length_zipWith] at hilt; omega
      have hi2 : i < ps.length := by
        rw [List.length_zipWith] at hilt; omega
      refine ⟨i, hi1, ?_⟩
      rw [List.getD_eq_getElem _ _ hi1, List.getD_eq_getElem _ _ hi2]
      rw [List.getElem_zipWith] at hieq
      rw [hieq]
      simpa using hpx
    · rintro ⟨i, hi1, hne0⟩
      have hi2 : i < ps.length := by omega
      have hzlt : i < (List.zipWith (· % ·) shape ps).length := by
        rw [List.length_zipWith]; omega
      refine ⟨(List.zipWith (· % ·) shape ps).get ⟨i, hzlt⟩, List.get_mem _ _ hzlt, ?_⟩
      rw [List.getD_eq_getElem _ _ hi1, List.getD_eq_getElem _ _ hi2] at hne0
      simp only [List.get_eq_getElem, List.getElem_zipWith]
      simpa using hne0
  by_cases hc : (List.zipWith (· % ·) shape ps).any (· ≠ 0) = true
  · have herr : patchify ⟨shape, data⟩ (some ps)
        = .error "Signal shape is not divisible by patch shape: impossible to create patches" := by
      unfold patchify
      dsimp only
      rw [if_neg hne', if_pos hc]
    exact iff_of_true ⟨_, herr⟩ (key.mp hc)
  · refine iff_of_false ?_ (fun hex => hc (key.mpr hex))
    rintro ⟨e, he⟩
    unfold patchify at he
    dsimp only at he
    rw [if_neg hne', if_neg hc] at he
    exact Except.noConfusion he


/-- Witness for C10: signal shape (6,6) with patch shape (4,4) raises,
since 6 % 4 ≠ 0. -/
theorem patchify_shape_error_iff_axis_indivisible_witness :
    (([4, 4] : List Nat) ≠ [6, 6]) ∧
    (∃ e, patchify ⟨[6, 6], List.replicate 36 (0 : ℚ)⟩ (some [4, 4])
        = .error e) :=
  ⟨by decide,
   (patchify_shape_error_iff_axis_indivisible [6, 6] [4, 4] (List.replicate 36 (0 : ℚ))
       (by decide) (by decide) (by decide)).mpr (by decide)⟩
